import Mathlib

/-!
Verification of `hy3dgen/texgen/vertex_coloring.py` (`apply_vertex_colors`).

Modelling conventions:
* Real (float64) coordinates are modelled as exact rationals `ℚ`.  The single
  place where float arithmetic can produce a non-finite value is the
  normalisation division `(vertices - min_bounds) / size`: when `size = 0`
  numpy yields NaN (the numerator is then also 0).  We model a possibly
  non-finite float as `Option ℚ`, `none` standing for a non-finite value.
* numpy's `.astype(int)` truncates finite floats toward zero; casting a
  non-finite float to an integer is undefined behaviour, so the embedding is
  parametrised by `castNF : ℤ`, the platform-dependent result of that cast
  (x86 numpy yields `Int64.minValue`, but nothing in the source fixes this).
* Images are height × width × channels grids of 8-bit values; the shape
  fields mirror `ndarray.shape`, and `ImageArray.WF` states the grid really
  has that shape with byte-sized entries.
* The per-vertex sampling loop mutates a colour buffer in place; we model it
  in state-passing style over `LoopState` (the image array together with the
  colour buffer) so that frame properties about the loop are expressible.
* Failures of numpy primitives (reducing an empty array, out-of-range
  indexing) are modelled with `Except VCError`.
-/

/- Batteries marks the core `Rat` arithmetic `@[irreducible]`, which stops
`decide` from evaluating concrete runs of the embedding during elaboration.
Restoring the default reducibility only affects elaboration-time unfolding;
kernel checking and the axiom footprint are unchanged. -/
set_option allowUnsafeReducibility true in
attribute [semireducible] Rat.add Rat.sub Rat.mul Rat.inv

abbrev V3 : Type := ℚ × ℚ × ℚ

abbrev RGBA : Type := ℕ × ℕ × ℕ × ℕ

abbrev Metadata : Type := List (String × String)

/-- A `trimesh.Trimesh`-like mesh: ordered vertices, triangular faces,
optional per-vertex RGBA colours, optional metadata mapping. -/
structure TriMesh where
  vertices : List V3
  faces : List (ℕ × ℕ × ℕ)
  vertexColors : Option (List RGBA) := none
  metadata : Option Metadata := none
  deriving Repr, DecidableEq

/-- A numpy image array: `shape = (height, width, channels)` plus the pixel
grid itself. -/
structure ImageArray where
  height : ℕ
  width : ℕ
  channels : ℕ
  pixels : List (List (List ℕ))
  deriving Repr, DecidableEq

/-- The grid really has the declared shape and 8-bit entries. -/
def ImageArray.WF (img : ImageArray) : Prop :=
  img.pixels.length = img.height ∧
    ∀ row ∈ img.pixels, row.length = img.width ∧
      ∀ px ∈ row, px.length = img.channels ∧ ∀ c ∈ px, c ≤ 255

instance (img : ImageArray) : Decidable img.WF := by
  unfold ImageArray.WF; infer_instance

/-- Failure modes of the routine: `valueError` is numpy's error on reducing
an empty array (`vertices.min(axis=0)` with no vertices); `indexError` is an
out-of-range array access. -/
inductive VCError where
  | valueError
  | indexError
  deriving Repr, DecidableEq

/-- numpy float division of `a` by `b`: non-finite (`none`) when `b = 0`
(in this program the numerator is then also `0`, so the value is NaN). -/
def npDiv (a b : ℚ) : Option ℚ :=
  if b = 0 then none else some (a / b)

/-- Truncation toward zero, the rounding `.astype(int)` uses on finite
floats. -/
def ratTrunc (q : ℚ) : ℤ :=
  if 0 ≤ q then ⌊q⌋ else ⌈q⌉

/-- `.astype(int)` on a possibly non-finite float: finite values truncate
toward zero; the non-finite cast is undefined behaviour, returning the
platform value `castNF`. -/
def astypeInt (castNF : ℤ) : Option ℚ → ℤ
  | none => castNF
  | some q => ratTrunc q

/-- `np.clip x lo hi = minimum (maximum x lo) hi`. -/
def npClip (x lo hi : ℤ) : ℤ :=
  min (max x lo) hi

/-- numpy indexing of an axis of length `n`: a nonnegative index must be
`< n`; a negative index `i` addresses `n + i` when `-n ≤ i`. -/
def npIndex (n : ℕ) (i : ℤ) : Option ℕ :=
  if 0 ≤ i ∧ i < (n : ℤ) then some i.toNat
  else if -(n : ℤ) ≤ i ∧ i < 0 then some (i + (n : ℤ)).toNat
  else none

/-- `image_array[y, x]`: bounds-check both indices against the shape, then
read the channel list of that pixel. -/
def getPixel (img : ImageArray) (y x : ℤ) : Option (List ℕ) := do
  let yi ← npIndex img.height y
  let xi ← npIndex img.width x
  let row ← img.pixels.get? yi
  row.get? xi

/-- Plain row-major pixel access at `(row, column)`, used to state that the
routine samples in `(img_y, img_x)` order. -/
def pixelAt (img : ImageArray) (row col : ℕ) : Option (List ℕ) :=
  (img.pixels.get? row).bind (fun r => r.get? col)

/-- The loop body's colour assembly: with 4 channels all four values are
copied (`vertex_colors[i, :] = pixel`); otherwise the three values go to
RGB and alpha keeps the buffer's current value (`vertex_colors[i, :3]`). -/
def mkColor (channels : ℕ) (cs : List ℕ) (cur : RGBA) : Option RGBA :=
  if channels = 4 then
    match cs.get? 0, cs.get? 1, cs.get? 2, cs.get? 3 with
    | some r, some g, some b, some a => some (r, g, b, a)
    | _, _, _, _ => none
  else
    match cs.get? 0, cs.get? 1, cs.get? 2 with
    | some r, some g, some b => some (r, g, b, cur.2.2.2)
    | _, _, _ => none

/-- `vertices.min(axis=0)` for one coordinate column (`none` on an empty
mesh, where numpy raises). -/
def axisMin : List ℚ → Option ℚ
  | [] => none
  | x :: rest => some (rest.foldl min x)

/-- `vertices.max(axis=0)` for one coordinate column. -/
def axisMax : List ℚ → Option ℚ
  | [] => none
  | x :: rest => some (rest.foldl max x)

/-- One column of `(vertices - min_bounds) / size`: each coordinate is
translated by the column minimum and divided by the column extent, which is
the NaN-producing `0 / 0` when the extent is zero. -/
def normalizeAxis (xs : List ℚ) : List (Option ℚ) :=
  match axisMin xs, axisMax xs with
  | some mn, some mx => xs.map (fun p => npDiv (p - mn) (mx - mn))
  | _, _ => []

def column1 (verts : List V3) : List ℚ := verts.map (fun p => p.1)

def column2 (verts : List V3) : List ℚ := verts.map (fun p => p.2.1)

def column3 (verts : List V3) : List ℚ := verts.map (fun p => p.2.2)

/-- `img_x = np.clip((normalized[:, 0] * img_width).astype(int), 0, img_width - 1)`. -/
def imgXsOf (castNF : ℤ) (w : ℕ) (verts : List V3) : List ℤ :=
  (normalizeAxis (column1 verts)).map
    (fun nx => npClip (astypeInt castNF (nx.map (fun q => q * (w : ℚ)))) 0 ((w : ℤ) - 1))

/-- `img_y = np.clip((normalized[:, 1] * img_height).astype(int), 0, img_height - 1)`. -/
def imgYsOf (castNF : ℤ) (h : ℕ) (verts : List V3) : List ℤ :=
  (normalizeAxis (column2 verts)).map
    (fun ny => npClip (astypeInt castNF (ny.map (fun q => q * (h : ℚ)))) 0 ((h : ℤ) - 1))

/-- The normalized z column, computed by the source (`normalized_verts[:, 2]`)
but never read afterwards. -/
def normZsOf (verts : List V3) : List (Option ℚ) :=
  normalizeAxis (column3 verts)

/-- The state mutated by the sampling loop: the image array it reads and the
`vertex_colors` buffer it writes. -/
structure LoopState where
  image : ImageArray
  colors : List RGBA
  deriving Repr, DecidableEq

/-- Fully opaque white, the loop buffer's initialisation
`np.ones((n, 4), dtype=np.uint8) * 255`. -/
def initColor : RGBA := (255, 255, 255, 255)

/-- One iteration of the sampling loop at vertex index `i`. -/
def sampleStep (ys xs : List ℤ) (st : LoopState) (i : ℕ) :
    Except VCError LoopState :=
  match ys.get? i, xs.get? i with
  | some y, some x =>
    match getPixel st.image y x with
    | none => .error .indexError
    | some cs =>
      match st.colors.get? i with
      | none => .error .indexError
      | some cur =>
        match mkColor st.image.channels cs cur with
        | none => .error .indexError
        | some col => .ok { st with colors := st.colors.set i col }
  | _, _ => .error .indexError

/-- `for i in range(len(vertices)): ...` over the given index list. -/
def sampleLoop (ys xs : List ℤ) : List ℕ → LoopState → Except VCError LoopState
  | [], st => .ok st
  | i :: rest, st =>
    match sampleStep ys xs st i with
    | .error e => .error e
    | .ok st' => sampleLoop ys xs rest st'

/-- Python `dict.copy()`: value-level it returns the same entries. -/
def dictCopy (m : Metadata) : Metadata := m

/-- Reference-level model of `mesh.metadata.copy()` on line 71: dictionaries
live in a store of mappings addressed by references, and `copy` allocates a
fresh mapping holding the same entries, returning the updated store and the
new reference. -/
def copyMetadataRef (store : List Metadata) (r : ℕ) : List Metadata × ℕ :=
  (store ++ [store.getD r []], store.length)

/-- Lines 41–60: initialise the colour buffer and run the sampling loop over
all vertex indices. -/
def runSampling (castNF : ℤ) (image : ImageArray) (verts : List V3) :
    Except VCError LoopState :=
  sampleLoop (imgYsOf castNF image.height verts) (imgXsOf castNF image.width verts)
    (List.range verts.length) ⟨image, List.replicate verts.length initColor⟩

/-- The embedding of `apply_vertex_colors(mesh, image)`. -/
def apply_vertex_colors (castNF : ℤ) (mesh : TriMesh) (image : ImageArray) :
    Except VCError TriMesh :=
  match mesh.vertices with
  | [] => .error .valueError
  | v :: vs =>
    match runSampling castNF image (v :: vs) with
    | .error e => .error e
    | .ok st' =>
      let newMesh : TriMesh :=
        { vertices := mesh.vertices
          faces := mesh.faces
          vertexColors := some st'.colors
          metadata := none }
      match mesh.metadata with
      | some m => .ok { newMesh with metadata := some (dictCopy m) }
      | none => .ok newMesh

/-- The colour the loop computes for a vertex whose clipped image
coordinates sit at position `i` of `ys`/`xs` (alpha base 255). -/
def expectedColor (img : ImageArray) (ys xs : List ℤ) (i : ℕ) : Option RGBA := do
  let y ← ys.get? i
  let x ← xs.get? i
  let cs ← getPixel img y x
  mkColor img.channels cs initColor

/-- Projection of a run's result to the colour attribute. -/
def resultColors (r : Except VCError TriMesh) : Option (List RGBA) :=
  match r with
  | .ok m => m.vertexColors
  | .error _ => none

/-- `true` iff the run raised. -/
def raised (r : Except VCError TriMesh) : Bool :=
  match r with
  | .ok _ => false
  | .error _ => true

/-- Modelled from the spec: normalisation with the explicit degenerate-axis
guard — "substituting a size of 1 ... for any axis where `size == 0`" —
which the spec's design mandates for the division of step 3. -/
def specNormalizeAxis (xs : List ℚ) : List ℚ :=
  match axisMin xs, axisMax xs with
  | some mn, some mx => xs.map (fun p => (p - mn) / (if mx - mn = 0 then 1 else mx - mn))
  | _, _ => []

/-! ### Concrete test fixtures -/

/-- A 2 × 2 RGB image with four distinct quadrant colours. -/
def img22 : ImageArray :=
  { height := 2, width := 2, channels := 3,
    pixels := [[[255, 0, 0], [0, 255, 0]], [[0, 0, 255], [255, 255, 0]]] }

/-- A 1 × 1 RGBA image. -/
def img11 : ImageArray :=
  { height := 1, width := 1, channels := 4, pixels := [[[10, 20, 30, 40]]] }

/-- The unit cube: the eight corners of `[0, 1]³`. -/
def cubeMesh : TriMesh :=
  { vertices := [(0, 0, 0), (1, 0, 0), (0, 1, 0), (1, 1, 0),
                 (0, 0, 1), (1, 0, 1), (0, 1, 1), (1, 1, 1)],
    faces := [(0, 1, 2), (1, 3, 2)] }

/-- A mesh degenerate along X: every vertex has `x = 2`. -/
def degMesh : TriMesh :=
  { vertices := [(2, 0, 0), (2, 1, 0)], faces := [(0, 1, 0)] }

/-- A mesh with no vertices. -/
def emptyMesh : TriMesh :=
  { vertices := [], faces := [] }

/-- The unit cube with every z-coordinate replaced by 9 (same X/Y columns
and faces as `cubeMesh`). -/
def cubeFlat : TriMesh :=
  { vertices := [(0, 0, 9), (1, 0, 9), (0, 1, 9), (1, 1, 9),
                 (0, 0, 9), (1, 0, 9), (0, 1, 9), (1, 1, 9)],
    faces := [(0, 1, 2), (1, 3, 2)] }

/-- A small mesh carrying a metadata mapping. -/
def metaMesh : TriMesh :=
  { vertices := [(0, 0, 0), (1, 1, 1)], faces := [(0, 1, 0)],
    metadata := some [("name", "box")] }

/-- The mesh `apply_vertex_colors` returns for `cubeMesh` and `img22`. -/
def cubeColored : TriMesh :=
  { vertices := cubeMesh.vertices,
    faces := cubeMesh.faces,
    vertexColors := some [(255, 0, 0, 255), (0, 255, 0, 255), (0, 0, 255, 255),
                          (255, 255, 0, 255), (255, 0, 0, 255), (0, 255, 0, 255),
                          (0, 0, 255, 255), (255, 255, 0, 255)],
    metadata := none }

/-- The mesh `apply_vertex_colors` returns for `cubeMesh` and `img11`. -/
def cubeOut11 : TriMesh :=
  { vertices := cubeMesh.vertices,
    faces := cubeMesh.faces,
    vertexColors := some (List.replicate 8 (10, 20, 30, 40)),
    metadata := none }

/-- The mesh `apply_vertex_colors` returns for `metaMesh` and `img11`. -/
def metaOut : TriMesh :=
  { vertices := metaMesh.vertices,
    faces := metaMesh.faces,
    vertexColors := some [(10, 20, 30, 40), (10, 20, 30, 40)],
    metadata := some [("name", "box")] }

/-! ### Basic lemmas about the numpy primitives -/

theorem foldl_min_le_init (r : List ℚ) (a : ℚ) : r.foldl min a ≤ a := by
  induction r generalizing a with
  | nil => exact le_refl a
  | cons x rest ih =>
    calc rest.foldl min (min a x) ≤ min a x := ih (min a x)
      _ ≤ a := min_le_left a x

theorem foldl_min_le_mem (r : List ℚ) (a x : ℚ) (hx : x ∈ r) :
    r.foldl min a ≤ x := by
  induction r generalizing a with
  | nil => cases hx
  | cons y rest ih =>
    rcases List.mem_cons.mp hx with h | h
    · subst h
      calc rest.foldl min (min a x) ≤ min a x := foldl_min_le_init rest (min a x)
        _ ≤ x := min_le_right a x
    · exact ih (min a y) h

theorem le_foldl_max_init (r : List ℚ) (a : ℚ) : a ≤ r.foldl max a := by
  induction r generalizing a with
  | nil => exact le_refl a
  | cons x rest ih =>
    calc a ≤ max a x := le_max_left a x
      _ ≤ rest.foldl max (max a x) := ih (max a x)

theorem mem_le_foldl_max (r : List ℚ) (a x : ℚ) (hx : x ∈ r) :
    x ≤ r.foldl max a := by
  induction r generalizing a with
  | nil => cases hx
  | cons y rest ih =>
    rcases List.mem_cons.mp hx with h | h
    · subst h
      calc x ≤ max a x := le_max_right a x
        _ ≤ rest.foldl max (max a x) := le_foldl_max_init rest (max a x)
    · exact ih (max a y) h

theorem axisMin_le (xs : List ℚ) (mn : ℚ) (h : axisMin xs = some mn) :
    ∀ x ∈ xs, mn ≤ x := by
  cases xs with
  | nil => simp [axisMin] at h
  | cons x rest =>
    simp only [axisMin, Option.some.injEq] at h
    subst h
    intro y hy
    rcases List.mem_cons.mp hy with h | h
    · subst h; exact foldl_min_le_init rest y
    · exact foldl_min_le_mem rest x y h

theorem le_axisMax (xs : List ℚ) (mx : ℚ) (h : axisMax xs = some mx) :
    ∀ x ∈ xs, x ≤ mx := by
  cases xs with
  | nil => simp [axisMax] at h
  | cons x rest =>
    simp only [axisMax, Option.some.injEq] at h
    subst h
    intro y hy
    rcases List.mem_cons.mp hy with h | h
    · subst h; exact le_foldl_max_init rest y
    · exact mem_le_foldl_max rest x y h

theorem axisMin_le_axisMax (xs : List ℚ) (mn mx : ℚ)
    (hmn : axisMin xs = some mn) (hmx : axisMax xs = some mx) : mn ≤ mx := by
  cases xs with
  | nil => simp [axisMin] at hmn
  | cons x rest =>
    exact le_trans (axisMin_le _ _ hmn x (List.mem_cons_self x rest))
      (le_axisMax _ _ hmx x (List.mem_cons_self x rest))

theorem npClip_bounds (z hi : ℤ) (hhi : 0 ≤ hi) :
    0 ≤ npClip z 0 hi ∧ npClip z 0 hi ≤ hi := by
  unfold npClip
  constructor
  · exact le_min (le_max_right z 0) hhi
  · exact min_le_right _ hi

theorem npIndex_zero (i : ℤ) : npIndex 0 i = none := by
  unfold npIndex
  split
  · omega
  · split
    · omega
    · rfl

theorem npIndex_of_bounds (n : ℕ) (i : ℤ) (h0 : 0 ≤ i) (hn : i < (n : ℤ)) :
    npIndex n i = some i.toNat ∧ i.toNat < n := by
  unfold npIndex
  rw [if_pos ⟨h0, hn⟩]
  exact ⟨rfl, by omega⟩

theorem ratTrunc_of_nonneg (q : ℚ) (h : 0 ≤ q) : ratTrunc q = ⌊q⌋ := by
  simp [ratTrunc, h]

theorem astypeInt_some (castNF : ℤ) (q : ℚ) (h : 0 ≤ q) :
    astypeInt castNF (some q) = ⌊q⌋ := by
  simp [astypeInt, ratTrunc_of_nonneg q h]

/-! ### The normalized columns and clipped index lists -/

theorem normalizeAxis_length (xs : List ℚ) :
    (normalizeAxis xs).length = xs.length := by
  cases xs with
  | nil => rfl
  | cons x rest => simp [normalizeAxis, axisMin, axisMax]

theorem imgXsOf_length (castNF : ℤ) (w : ℕ) (verts : List V3) :
    (imgXsOf castNF w verts).length = verts.length := by
  simp [imgXsOf, normalizeAxis_length, column1]

theorem imgYsOf_length (castNF : ℤ) (h : ℕ) (verts : List V3) :
    (imgYsOf castNF h verts).length = verts.length := by
  simp [imgYsOf, normalizeAxis_length, column2]

theorem imgXsOf_get_bounds (castNF : ℤ) (w : ℕ) (hw : 1 ≤ w)
    (verts : List V3) (j : ℕ) (z : ℤ)
    (hz : (imgXsOf castNF w verts).get? j = some z) :
    0 ≤ z ∧ z ≤ (w : ℤ) - 1 := by
  unfold imgXsOf at hz
  rw [List.get?_map] at hz
  cases h : (normalizeAxis (column1 verts)).get? j with
  | none => rw [h] at hz; simp at hz
  | some nx =>
    rw [h] at hz
    simp only [Option.map_some'] at hz
    injection hz with hz
    subst hz
    exact npClip_bounds _ _ (by omega)

theorem imgYsOf_get_bounds (castNF : ℤ) (h : ℕ) (hh : 1 ≤ h)
    (verts : List V3) (j : ℕ) (z : ℤ)
    (hz : (imgYsOf castNF h verts).get? j = some z) :
    0 ≤ z ∧ z ≤ (h : ℤ) - 1 := by
  unfold imgYsOf at hz
  rw [List.get?_map] at hz
  cases h' : (normalizeAxis (column2 verts)).get? j with
  | none => rw [h'] at hz; simp at hz
  | some ny =>
    rw [h'] at hz
    simp only [Option.map_some'] at hz
    injection hz with hz
    subst hz
    exact npClip_bounds _ _ (by omega)

theorem get?_isSome_of_lt {α : Type} (l : List α) (j : ℕ) (h : j < l.length) :
    ∃ a, l.get? j = some a := by
  cases hg : l.get? j with
  | none => rw [List.get?_eq_none] at hg; omega
  | some a => exact ⟨a, rfl⟩

/-! ### Pixel access and colour assembly -/

theorem getPixel_of_WF (img : ImageArray) (hwf : img.WF) (y x : ℤ)
    (hy0 : 0 ≤ y) (hyh : y < (img.height : ℤ))
    (hx0 : 0 ≤ x) (hxw : x < (img.width : ℤ)) :
    ∃ cs, getPixel img y x = some cs ∧
      pixelAt img y.toNat x.toNat = some cs ∧
      cs.length = img.channels ∧ ∀ c ∈ cs, c ≤ 255 := by
  obtain ⟨hy, hylt⟩ := npIndex_of_bounds img.height y hy0 hyh
  obtain ⟨hx, hxlt⟩ := npIndex_of_bounds img.width x hx0 hxw
  obtain ⟨hlen, hrows⟩ := hwf
  obtain ⟨row, hrow⟩ := get?_isSome_of_lt img.pixels y.toNat (by omega)
  have hrowmem : row ∈ img.pixels := List.get?_mem hrow
  obtain ⟨hrlen, hpx⟩ := hrows row hrowmem
  obtain ⟨cs, hcs⟩ := get?_isSome_of_lt row x.toNat (by omega)
  have hcsmem : cs ∈ row := List.get?_mem hcs
  obtain ⟨hcslen, hcb⟩ := hpx cs hcsmem
  refine ⟨cs, ?_, ?_, hcslen, hcb⟩
  · rw [List.get?_eq_getElem?] at hrow hcs
    simp [getPixel, hy, hx, hrow, hcs]
  · rw [List.get?_eq_getElem?] at hrow hcs
    simp [pixelAt, hrow, hcs]

theorem mkColor_three (cs : List ℕ) (cur : RGBA)
    (hch : cs.length = 3) :
    ∃ r g b, cs.get? 0 = some r ∧ cs.get? 1 = some g ∧ cs.get? 2 = some b ∧
      mkColor 3 cs cur = some (r, g, b, cur.2.2.2) := by
  obtain ⟨r, hr⟩ := get?_isSome_of_lt cs 0 (by omega)
  obtain ⟨g, hg⟩ := get?_isSome_of_lt cs 1 (by omega)
  obtain ⟨b, hb⟩ := get?_isSome_of_lt cs 2 (by omega)
  refine ⟨r, g, b, hr, hg, hb, ?_⟩
  rw [mkColor, if_neg (by omega), hr, hg, hb]

theorem mkColor_four (cs : List ℕ) (cur : RGBA)
    (hch : cs.length = 4) :
    ∃ r g b a, cs.get? 0 = some r ∧ cs.get? 1 = some g ∧ cs.get? 2 = some b ∧
      cs.get? 3 = some a ∧ mkColor 4 cs cur = some (r, g, b, a) := by
  obtain ⟨r, hr⟩ := get?_isSome_of_lt cs 0 (by omega)
  obtain ⟨g, hg⟩ := get?_isSome_of_lt cs 1 (by omega)
  obtain ⟨b, hb⟩ := get?_isSome_of_lt cs 2 (by omega)
  obtain ⟨a, ha⟩ := get?_isSome_of_lt cs 3 (by omega)
  refine ⟨r, g, b, a, hr, hg, hb, ha, ?_⟩
  rw [mkColor, if_pos rfl, hr, hg, hb, ha]

theorem mkColor_isSome (channels : ℕ) (cs : List ℕ) (cur : RGBA)
    (hch : channels = 3 ∨ channels = 4) (hlen : cs.length = channels) :
    ∃ c, mkColor channels cs cur = some c := by
  rcases hch with h | h
  · subst h
    obtain ⟨r, g, b, _, _, _, hmk⟩ := mkColor_three cs cur hlen
    exact ⟨_, hmk⟩
  · subst h
    obtain ⟨r, g, b, a, _, _, _, _, hmk⟩ := mkColor_four cs cur hlen
    exact ⟨_, hmk⟩

theorem mkColor_bounds (channels : ℕ) (cs : List ℕ) (c : RGBA)
    (hcb : ∀ v ∈ cs, v ≤ 255)
    (hmk : mkColor channels cs initColor = some c) :
    c.1 ≤ 255 ∧ c.2.1 ≤ 255 ∧ c.2.2.1 ≤ 255 ∧ c.2.2.2 ≤ 255 := by
  unfold mkColor at hmk
  split at hmk
  · split at hmk
    · rename_i r g b a h0 h1 h2 h3
      injection hmk with hmk
      subst hmk
      exact ⟨hcb r (List.get?_mem h0), hcb g (List.get?_mem h1),
        hcb b (List.get?_mem h2), hcb a (List.get?_mem h3)⟩
    · cases hmk
  · split at hmk
    · rename_i r g b h0 h1 h2
      injection hmk with hmk
      subst hmk
      exact ⟨hcb r (List.get?_mem h0), hcb g (List.get?_mem h1),
        hcb b (List.get?_mem h2), by simp [initColor]⟩
    · cases hmk

/-! ### The sampling loop -/

theorem expectedColor_some (img : ImageArray) (hwf : img.WF)
    (hch : img.channels = 3 ∨ img.channels = 4)
    (ys xs : List ℤ) (j : ℕ) (y x : ℤ)
    (hy : ys.get? j = some y) (hx : xs.get? j = some x)
    (hy0 : 0 ≤ y) (hyh : y < (img.height : ℤ))
    (hx0 : 0 ≤ x) (hxw : x < (img.width : ℤ)) :
    ∃ c, expectedColor img ys xs j = some c ∧
      c.1 ≤ 255 ∧ c.2.1 ≤ 255 ∧ c.2.2.1 ≤ 255 ∧ c.2.2.2 ≤ 255 := by
  obtain ⟨cs, hg, _, hlen, hcb⟩ := getPixel_of_WF img hwf y x hy0 hyh hx0 hxw
  obtain ⟨c, hmk⟩ := mkColor_isSome img.channels cs initColor hch hlen
  refine ⟨c, ?_, mkColor_bounds _ _ _ hcb hmk⟩
  rw [List.get?_eq_getElem?] at hy hx
  simp [expectedColor, hy, hx, hg, hmk]

theorem sampleStep_char (ys xs : List ℤ) (st : LoopState) (i : ℕ)
    (hcur : st.colors.get? i = some initColor) :
    sampleStep ys xs st i =
      match expectedColor st.image ys xs i with
      | some col => .ok ⟨st.image, st.colors.set i col⟩
      | none => .error .indexError := by
  unfold sampleStep expectedColor
  cases hy : ys.get? i with
  | none => simp [hy]
  | some y =>
    cases hx : xs.get? i with
    | none => simp [hy, hx]
    | some x =>
      cases hg : getPixel st.image y x with
      | none => simp [hy, hx, hg]
      | some cs =>
        rw [List.get?_eq_getElem?] at hcur
        cases hmk : mkColor st.image.channels cs initColor with
        | none => simp [hy, hx, hg, hcur, hmk]
        | some col => simp [hy, hx, hg, hcur, hmk]

theorem sampleStep_image (ys xs : List ℤ) (st st' : LoopState) (i : ℕ)
    (h : sampleStep ys xs st i = .ok st') : st'.image = st.image := by
  unfold sampleStep at h
  split at h
  · split at h
    · cases h
    · split at h
      · cases h
      · split at h
        · cases h
        · injection h with h
          subst h
          rfl
  · cases h

theorem sampleLoop_image (ys xs : List ℤ) (idxs : List ℕ)
    (st st' : LoopState) (h : sampleLoop ys xs idxs st = .ok st') :
    st'.image = st.image := by
  induction idxs generalizing st with
  | nil =>
    unfold sampleLoop at h
    injection h with h
    subst h
    rfl
  | cons i rest ih =>
    unfold sampleLoop at h
    cases hs : sampleStep ys xs st i with
    | error e => rw [hs] at h; cases h
    | ok st1 =>
      rw [hs] at h
      rw [ih st1 h, sampleStep_image ys xs st st1 i hs]

theorem sampleLoop_cons_error (ys xs : List ℤ) (i : ℕ) (rest : List ℕ)
    (st : LoopState) (e : VCError) (h : sampleStep ys xs st i = .error e) :
    sampleLoop ys xs (i :: rest) st = .error e := by
  unfold sampleLoop
  rw [h]

theorem sampleLoop_ok_of (ys xs : List ℤ) (idxs : List ℕ) (st : LoopState)
    (hnd : idxs.Nodup)
    (hwhite : ∀ j ∈ idxs, st.colors.get? j = some initColor)
    (hok : ∀ j ∈ idxs, ∃ c, expectedColor st.image ys xs j = some c) :
    ∃ st', sampleLoop ys xs idxs st = .ok st' ∧ st'.image = st.image ∧
      st'.colors.length = st.colors.length ∧
      (∀ j ∈ idxs, st'.colors.get? j = expectedColor st.image ys xs j) ∧
      (∀ j, j ∉ idxs → st'.colors.get? j = st.colors.get? j) := by
  induction idxs generalizing st with
  | nil =>
    exact ⟨st, rfl, rfl, rfl, by simp, fun j _ => rfl⟩
  | cons i rest ih =>
    obtain ⟨c, hc⟩ := hok i (List.mem_cons_self i rest)
    have hcuri := hwhite i (List.mem_cons_self i rest)
    have hstep : sampleStep ys xs st i = .ok ⟨st.image, st.colors.set i c⟩ := by
      rw [sampleStep_char ys xs st i hcuri, hc]
    have hilt : i < st.colors.length := by
      rcases List.get?_eq_some.mp hcuri with ⟨h, _⟩
      exact h
    have hnd' : rest.Nodup := (List.nodup_cons.mp hnd).2
    have hni : i ∉ rest := (List.nodup_cons.mp hnd).1
    have hwhite' : ∀ j ∈ rest,
        (LoopState.mk st.image (st.colors.set i c)).colors.get? j = some initColor := by
      intro j hj
      have hne : i ≠ j := fun h => hni (h ▸ hj)
      show (st.colors.set i c).get? j = some initColor
      rw [List.get?_set_ne c st.colors hne]
      exact hwhite j (List.mem_cons_of_mem i hj)
    have hok' : ∀ j ∈ rest,
        ∃ c', expectedColor (LoopState.mk st.image (st.colors.set i c)).image ys xs j
          = some c' := by
      intro j hj
      exact hok j (List.mem_cons_of_mem i hj)
    obtain ⟨st', hrun, himg, hlen, hin, hout⟩ :=
      ih (LoopState.mk st.image (st.colors.set i c)) hnd' hwhite' hok'
    refine ⟨st', ?_, himg, ?_, ?_, ?_⟩
    · unfold sampleLoop
      rw [hstep]
      exact hrun
    · rw [hlen]
      exact List.length_set st.colors i c
    · intro j hj
      rcases List.mem_cons.mp hj with h | h
      · subst h
        rw [hout j hni]
        show (st.colors.set j c).get? j = expectedColor st.image ys xs j
        rw [List.get?_set_eq_of_lt c hilt, hc]
      · rw [hin j h]
    · intro j hj
      have hji : j ≠ i := fun h => hj (h ▸ List.mem_cons_self i rest)
      have hjr : j ∉ rest := fun h => hj (List.mem_cons_of_mem i h)
      rw [hout j hjr]
      show (st.colors.set i c).get? j = st.colors.get? j
      exact List.get?_set_ne c st.colors (fun h => hji h.symm)

/-! ### Characterising a successful run -/

theorem apply_cons (castNF : ℤ) (mesh : TriMesh) (img : ImageArray)
    (v : V3) (vs : List V3) (hv : mesh.vertices = v :: vs) :
    apply_vertex_colors castNF mesh img =
      match runSampling castNF img (v :: vs) with
      | .error e => .error e
      | .ok st' =>
        match mesh.metadata with
        | some m => .ok { vertices := mesh.vertices, faces := mesh.faces,
                          vertexColors := some st'.colors,
                          metadata := some (dictCopy m) }
        | none => .ok { vertices := mesh.vertices, faces := mesh.faces,
                        vertexColors := some st'.colors, metadata := none } := by
  unfold apply_vertex_colors
  rw [hv]

theorem apply_ok (castNF : ℤ) (mesh : TriMesh) (img : ImageArray)
    (hne : mesh.vertices ≠ [])
    (hwf : img.WF) (hh : 1 ≤ img.height) (hw : 1 ≤ img.width)
    (hch : img.channels = 3 ∨ img.channels = 4) :
    ∃ colors,
      apply_vertex_colors castNF mesh img =
        .ok { vertices := mesh.vertices, faces := mesh.faces,
              vertexColors := some colors, metadata := mesh.metadata } ∧
      colors.length = mesh.vertices.length ∧
      ∀ j, j < mesh.vertices.length →
        colors.get? j = expectedColor img
          (imgYsOf castNF img.height mesh.vertices)
          (imgXsOf castNF img.width mesh.vertices) j := by
  cases hv : mesh.vertices with
  | nil => exact absurd hv hne
  | cons v vs =>
    have hok : ∀ j ∈ List.range (v :: vs).length,
        ∃ c, expectedColor (LoopState.mk img
            (List.replicate (v :: vs).length initColor)).image
          (imgYsOf castNF img.height (v :: vs))
          (imgXsOf castNF img.width (v :: vs)) j = some c := by
      intro j hj
      rw [List.mem_range] at hj
      obtain ⟨y, hy⟩ := get?_isSome_of_lt (imgYsOf castNF img.height (v :: vs)) j
        (by rw [imgYsOf_length]; exact hj)
      obtain ⟨x, hx⟩ := get?_isSome_of_lt (imgXsOf castNF img.width (v :: vs)) j
        (by rw [imgXsOf_length]; exact hj)
      obtain ⟨hy0, hyb⟩ := imgYsOf_get_bounds castNF img.height hh (v :: vs) j y hy
      obtain ⟨hx0, hxb⟩ := imgXsOf_get_bounds castNF img.width hw (v :: vs) j x hx
      obtain ⟨c, hc, _⟩ := expectedColor_some img hwf hch _ _ j y x hy hx
        hy0 (by omega) hx0 (by omega)
      exact ⟨c, hc⟩
    have hwhite : ∀ j ∈ List.range (v :: vs).length,
        (LoopState.mk img (List.replicate (v :: vs).length initColor)).colors.get? j
          = some initColor := by
      intro j hj
      rw [List.mem_range] at hj
      simp only [List.length_cons] at hj
      show (List.replicate (v :: vs).length initColor).get? j = some initColor
      rw [List.get?_eq_getElem?]
      simp [List.getElem?_replicate, hj]
    obtain ⟨st', hrun, himg, hlen, hin, _⟩ :=
      sampleLoop_ok_of (imgYsOf castNF img.height (v :: vs))
        (imgXsOf castNF img.width (v :: vs))
        (List.range (v :: vs).length)
        (LoopState.mk img (List.replicate (v :: vs).length initColor))
        (List.nodup_range _) hwhite hok
    refine ⟨st'.colors, ?_, ?_, ?_⟩
    · rw [apply_cons castNF mesh img v vs hv]
      unfold runSampling
      rw [hrun]
      cases hm : mesh.metadata with
      | none => simp [hm, hv]
      | some m => simp [hm, hv, dictCopy]
    · rw [hlen]
      simp [hv]
    · intro j hj
      exact hin j (List.mem_range.mpr hj)

/-! ### The failing runs -/

theorem apply_nil (castNF : ℤ) (mesh : TriMesh) (img : ImageArray)
    (hv : mesh.vertices = []) :
    apply_vertex_colors castNF mesh img = .error .valueError := by
  unfold apply_vertex_colors
  rw [hv]

theorem getPixel_none_left (img : ImageArray) (y x : ℤ)
    (h : npIndex img.height y = none) : getPixel img y x = none := by
  simp [getPixel, h]

theorem getPixel_none_right (img : ImageArray) (y x : ℤ)
    (h : npIndex img.width x = none) : getPixel img y x = none := by
  cases hy : npIndex img.height y <;> simp [getPixel, hy, h]

theorem apply_zero_dim (castNF : ℤ) (mesh : TriMesh) (img : ImageArray)
    (hne : mesh.vertices ≠ []) (hdim : img.height = 0 ∨ img.width = 0) :
    apply_vertex_colors castNF mesh img = .error .indexError := by
  cases hv : mesh.vertices with
  | nil => exact absurd hv hne
  | cons v vs =>
    obtain ⟨y0, hy0⟩ := get?_isSome_of_lt (imgYsOf castNF img.height (v :: vs)) 0
      (by rw [imgYsOf_length]; simp)
    obtain ⟨x0, hx0⟩ := get?_isSome_of_lt (imgXsOf castNF img.width (v :: vs)) 0
      (by rw [imgXsOf_length]; simp)
    have hgp : getPixel img y0 x0 = none := by
      rcases hdim with h | h
      · exact getPixel_none_left img y0 x0 (by rw [h]; exact npIndex_zero y0)
      · exact getPixel_none_right img y0 x0 (by rw [h]; exact npIndex_zero x0)
    have hstep : sampleStep (imgYsOf castNF img.height (v :: vs))
        (imgXsOf castNF img.width (v :: vs))
        (LoopState.mk img (List.replicate (vs.length + 1) initColor)) 0
        = .error .indexError := by
      unfold sampleStep
      rw [hy0, hx0]
      simp only []
      rw [hgp]
    rw [apply_cons castNF mesh img v vs hv]
    unfold runSampling
    rw [show (v :: vs).length = vs.length + 1 from rfl, List.range_succ_eq_map]
    rw [sampleLoop_cons_error _ _ _ _ _ _ hstep]

/-! ### The index formula on non-degenerate axes -/

theorem normalizeAxis_get (xs : List ℚ) (mn mx : ℚ)
    (hmn : axisMin xs = some mn) (hmx : axisMax xs = some mx)
    (j : ℕ) (p : ℚ) (hp : xs.get? j = some p) :
    (normalizeAxis xs).get? j = some (npDiv (p - mn) (mx - mn)) := by
  cases xs with
  | nil => simp [axisMin] at hmn
  | cons x rest =>
    simp only [axisMin, Option.some.injEq] at hmn
    simp only [axisMax, Option.some.injEq] at hmx
    subst hmn
    subst hmx
    unfold normalizeAxis
    simp only [axisMin, axisMax]
    rw [List.get?_map, hp]
    rfl

theorem norm_unit (xs : List ℚ) (mn mx p : ℚ) (hmn : axisMin xs = some mn)
    (hmx : axisMax xs = some mx) (hp : p ∈ xs) (hsz : mx - mn ≠ 0) :
    0 ≤ (p - mn) / (mx - mn) ∧ (p - mn) / (mx - mn) ≤ 1 := by
  have h1 : mn ≤ p := axisMin_le xs mn hmn p hp
  have h2 : p ≤ mx := le_axisMax xs mx hmx p hp
  have h3 : 0 < mx - mn := lt_of_le_of_ne (by linarith) (Ne.symm hsz)
  constructor
  · exact div_nonneg (by linarith) (le_of_lt h3)
  · rw [div_le_one h3]
    linarith

theorem imgXsOf_get_formula (castNF : ℤ) (w : ℕ) (verts : List V3)
    (mnx mxx : ℚ) (hmn : axisMin (column1 verts) = some mnx)
    (hmx : axisMax (column1 verts) = some mxx) (hsz : mxx - mnx ≠ 0)
    (j : ℕ) (p : V3) (hp : verts.get? j = some p) :
    (imgXsOf castNF w verts).get? j =
      some (npClip ⌊(p.1 - mnx) / (mxx - mnx) * (w : ℚ)⌋ 0 ((w : ℤ) - 1)) := by
  have hpx : (column1 verts).get? j = some p.1 := by
    unfold column1
    rw [List.get?_map, hp]
    rfl
  have hmem : p.1 ∈ column1 verts := List.get?_mem hpx
  have hn := normalizeAxis_get (column1 verts) mnx mxx hmn hmx j p.1 hpx
  unfold imgXsOf
  rw [List.get?_map, hn]
  simp only [Option.map_some']
  congr 1
  unfold npDiv
  rw [if_neg hsz]
  simp only [Option.map_some']
  rw [astypeInt_some]
  exact mul_nonneg (norm_unit (column1 verts) mnx mxx p.1 hmn hmx hmem hsz).1
    (by positivity)

theorem imgYsOf_get_formula (castNF : ℤ) (h : ℕ) (verts : List V3)
    (mny mxy : ℚ) (hmn : axisMin (column2 verts) = some mny)
    (hmx : axisMax (column2 verts) = some mxy) (hsz : mxy - mny ≠ 0)
    (j : ℕ) (p : V3) (hp : verts.get? j = some p) :
    (imgYsOf castNF h verts).get? j =
      some (npClip ⌊(p.2.1 - mny) / (mxy - mny) * (h : ℚ)⌋ 0 ((h : ℤ) - 1)) := by
  have hpy : (column2 verts).get? j = some p.2.1 := by
    unfold column2
    rw [List.get?_map, hp]
    rfl
  have hmem : p.2.1 ∈ column2 verts := List.get?_mem hpy
  have hn := normalizeAxis_get (column2 verts) mny mxy hmn hmx j p.2.1 hpy
  unfold imgYsOf
  rw [List.get?_map, hn]
  simp only [Option.map_some']
  congr 1
  unfold npDiv
  rw [if_neg hsz]
  simp only [Option.map_some']
  rw [astypeInt_some]
  exact mul_nonneg (norm_unit (column2 verts) mny mxy p.2.1 hmn hmx hmem hsz).1
    (by positivity)

/-! ### The computation depends only on the X and Y columns -/

theorem runSampling_congr (castNF : ℤ) (img : ImageArray) (v1 v2 : List V3)
    (h1 : column1 v1 = column1 v2) (h2 : column2 v1 = column2 v2) :
    runSampling castNF img v1 = runSampling castNF img v2 := by
  have hlen : v1.length = v2.length := by
    have := congrArg List.length h1
    simpa [column1] using this
  unfold runSampling
  rw [show imgYsOf castNF img.height v1 = imgYsOf castNF img.height v2 from by
        unfold imgYsOf
        rw [h2],
      show imgXsOf castNF img.width v1 = imgXsOf castNF img.width v2 from by
        unfold imgXsOf
        rw [h1],
      hlen]

/-! ### Shared helper lemmas for the claims -/

theorem expectedColorAt (castNF : ℤ) (img : ImageArray) (verts : List V3)
    (hwf : img.WF) (hh : 1 ≤ img.height) (hw : 1 ≤ img.width)
    (hch : img.channels = 3 ∨ img.channels = 4) (j : ℕ) (hj : j < verts.length) :
    ∃ c, expectedColor img (imgYsOf castNF img.height verts)
        (imgXsOf castNF img.width verts) j = some c ∧
      c.1 ≤ 255 ∧ c.2.1 ≤ 255 ∧ c.2.2.1 ≤ 255 ∧ c.2.2.2 ≤ 255 := by
  obtain ⟨y, hy⟩ := get?_isSome_of_lt (imgYsOf castNF img.height verts) j
    (by rw [imgYsOf_length]; exact hj)
  obtain ⟨x, hx⟩ := get?_isSome_of_lt (imgXsOf castNF img.width verts) j
    (by rw [imgXsOf_length]; exact hj)
  obtain ⟨hy0, hyb⟩ := imgYsOf_get_bounds castNF img.height hh verts j y hy
  obtain ⟨hx0, hxb⟩ := imgXsOf_get_bounds castNF img.width hw verts j x hx
  exact expectedColor_some img hwf hch _ _ j y x hy hx hy0 (by omega) hx0 (by omega)

theorem apply_ok_fields (castNF : ℤ) (mesh : TriMesh) (img : ImageArray)
    (out : TriMesh) (h : apply_vertex_colors castNF mesh img = .ok out) :
    out.vertices = mesh.vertices ∧ out.faces = mesh.faces ∧
      out.metadata = mesh.metadata ∧ ∃ colors, out.vertexColors = some colors := by
  cases hv : mesh.vertices with
  | nil =>
    rw [apply_nil castNF mesh img hv] at h
    cases h
  | cons v vs =>
    rw [apply_cons castNF mesh img v vs hv] at h
    cases hrs : runSampling castNF img (v :: vs) with
    | error e =>
      rw [hrs] at h
      cases h
    | ok st' =>
      rw [hrs] at h
      cases hm : mesh.metadata with
      | some m =>
        rw [hm] at h
        simp only [] at h
        injection h with h
        subst h
        exact ⟨hv, rfl, rfl, st'.colors, rfl⟩
      | none =>
        rw [hm] at h
        simp only [] at h
        injection h with h
        subst h
        exact ⟨hv, rfl, rfl, st'.colors, rfl⟩

theorem getD_eq_of_get? {α : Type} (l : List α) (k : ℕ) (v d : α)
    (h : l.get? k = some v) : l.getD k d = v := by
  rw [List.get?_eq_getElem?] at h
  simp [List.getD, h]

/-! ### Claim theorems -/

/-- C1 (counterexample): the claim says a zero-size axis "is treated as if
its size were 1 (equivalently, its normalized coordinate is 0), so no
NaN/Infinity pixel index is ever produced".  On the concrete mesh `degMesh`
(both vertices at `x = 2`) the code's normalized X column is `0 / 0` twice,
i.e. two NaNs — not `0`, which is what the spec's guarded normalization
(`specNormalizeAxis`) yields — and the colours the routine then returns
depend on the platform's undefined NaN→int cast (`castNF`), so the
degenerate axis is not "treated as" anything definite at all. -/
theorem C1_counterexample :
    normalizeAxis (column1 degMesh.vertices) = [none, none] ∧
    specNormalizeAxis (column1 degMesh.vertices) = [0, 0] ∧
    normalizeAxis (column1 degMesh.vertices) ≠
      (specNormalizeAxis (column1 degMesh.vertices)).map some ∧
    resultColors (apply_vertex_colors 1 degMesh img22) ≠
      resultColors (apply_vertex_colors (-1) degMesh img22) := by
  refine ⟨by decide, by decide, by decide, by decide⟩

/-- C1 (amended): for every mesh whose bounding box has zero size on some
axis (and any valid image), `apply_vertex_colors` does not raise and
assigns every vertex a defined, in-range RGBA colour, for every possible
value of the platform's non-finite→int cast; the NaN normalized coordinate
is eliminated by the integer cast and the clamp into `[0, dim - 1]`, not by
substituting a size of 1. -/
theorem C1_degenerate_safe (castNF : ℤ) (mesh : TriMesh) (img : ImageArray)
    (hne : mesh.vertices ≠ [])
    (hdeg : axisMin (column1 mesh.vertices) = axisMax (column1 mesh.vertices) ∨
            axisMin (column2 mesh.vertices) = axisMax (column2 mesh.vertices) ∨
            axisMin (column3 mesh.vertices) = axisMax (column3 mesh.vertices))
    (hwf : img.WF) (hh : 1 ≤ img.height) (hw : 1 ≤ img.width)
    (hch : img.channels = 3 ∨ img.channels = 4) :
    raised (apply_vertex_colors castNF mesh img) = false ∧
    ∃ colors, resultColors (apply_vertex_colors castNF mesh img) = some colors ∧
      colors.length = mesh.vertices.length ∧
      ∀ c ∈ colors, c.1 ≤ 255 ∧ c.2.1 ≤ 255 ∧ c.2.2.1 ≤ 255 ∧ c.2.2.2 ≤ 255 := by
  obtain ⟨colors, happ, hlen, hget⟩ := apply_ok castNF mesh img hne hwf hh hw hch
  refine ⟨by rw [happ]; rfl, colors, by rw [happ]; rfl, hlen, ?_⟩
  intro c hc
  obtain ⟨j, hj⟩ := List.mem_iff_get?.mp hc
  obtain ⟨hjl, -⟩ := List.get?_eq_some.mp hj
  rw [hlen] at hjl
  obtain ⟨c', hc', hb⟩ := expectedColorAt castNF img mesh.vertices hwf hh hw hch j hjl
  rw [hget j hjl, hc'] at hj
  injection hj with hj
  exact hj ▸ hb

/-- C1 (amended) witness at the degenerate mesh `degMesh` and `img22`,
with a positive non-finite cast value. -/
theorem C1_witness :
    raised (apply_vertex_colors 7 degMesh img22) = false ∧
    ∃ colors, resultColors (apply_vertex_colors 7 degMesh img22) = some colors ∧
      colors.length = degMesh.vertices.length ∧
      ∀ c ∈ colors, c.1 ≤ 255 ∧ c.2.1 ≤ 255 ∧ c.2.2.1 ≤ 255 ∧ c.2.2.2 ≤ 255 :=
  C1_degenerate_safe 7 degMesh img22 (by decide) (Or.inl (by decide))
    (by decide) (by decide) (by decide) (by decide)

/-- C2: the routine fails exactly when the mesh has no vertices or the
image has zero height or zero width (the single invalid-input condition of
the spec); on every other valid input it returns successfully. -/
theorem C2_invalid_input (castNF : ℤ) (mesh : TriMesh) (img : ImageArray)
    (hwf : img.WF) (hch : img.channels = 3 ∨ img.channels = 4) :
    raised (apply_vertex_colors castNF mesh img) = true ↔
      (mesh.vertices = [] ∨ img.height = 0 ∨ img.width = 0) := by
  constructor
  · intro hr
    by_contra hcon
    push_neg at hcon
    obtain ⟨hne, hh, hw⟩ := hcon
    obtain ⟨colors, happ, -, -⟩ := apply_ok castNF mesh img hne hwf
      (by omega) (by omega) hch
    rw [happ] at hr
    simp [raised] at hr
  · intro hbad
    by_cases hne : mesh.vertices = []
    · rw [apply_nil castNF mesh img hne]
      rfl
    · rcases hbad with h | h | h
      · exact absurd h hne
      · rw [apply_zero_dim castNF mesh img hne (Or.inl h)]
        rfl
      · rw [apply_zero_dim castNF mesh img hne (Or.inr h)]
        rfl

/-- C2 witness: the unit cube with a 2×2 RGB image succeeds; the empty
mesh fails. -/
theorem C2_witness :
    raised (apply_vertex_colors 0 cubeMesh img22) = false ∧
    raised (apply_vertex_colors 0 emptyMesh img22) = true := by
  constructor
  · by_cases hr : raised (apply_vertex_colors 0 cubeMesh img22) = true
    · exact absurd ((C2_invalid_input 0 cubeMesh img22 (by decide) (by decide)).mp hr)
        (by decide)
    · simpa using hr
  · exact (C2_invalid_input 0 emptyMesh img22 (by decide) (by decide)).mpr
      (Or.inl rfl)

/-- C3: whenever the routine returns a mesh, that mesh has exactly the
input's vertex list and face list. -/
theorem C3_topology_preserved (castNF : ℤ) (mesh : TriMesh) (img : ImageArray)
    (out : TriMesh) (h : apply_vertex_colors castNF mesh img = .ok out) :
    out.vertices = mesh.vertices ∧ out.faces = mesh.faces := by
  obtain ⟨h1, h2, -, -⟩ := apply_ok_fields castNF mesh img out h
  exact ⟨h1, h2⟩

/-- C3 witness at the unit cube and the 2×2 image. -/
theorem C3_witness :
    cubeColored.vertices = cubeMesh.vertices ∧
    cubeColored.faces = cubeMesh.faces :=
  C3_topology_preserved 0 cubeMesh img22 cubeColored (by rfl)

/-- C4: on every valid input the output carries exactly one RGBA entry per
input vertex, the `j`-th entry being the colour sampled for the `j`-th
vertex, and every component of every colour lies in `[0, 255]`. -/
theorem C4_color_cardinality (castNF : ℤ) (mesh : TriMesh) (img : ImageArray)
    (hne : mesh.vertices ≠ []) (hwf : img.WF) (hh : 1 ≤ img.height)
    (hw : 1 ≤ img.width) (hch : img.channels = 3 ∨ img.channels = 4) :
    ∃ out colors, apply_vertex_colors castNF mesh img = .ok out ∧
      out.vertexColors = some colors ∧
      colors.length = mesh.vertices.length ∧
      (∀ j, j < mesh.vertices.length →
        colors.get? j = expectedColor img (imgYsOf castNF img.height mesh.vertices)
          (imgXsOf castNF img.width mesh.vertices) j) ∧
      ∀ c ∈ colors, c.1 ≤ 255 ∧ c.2.1 ≤ 255 ∧ c.2.2.1 ≤ 255 ∧ c.2.2.2 ≤ 255 := by
  obtain ⟨colors, happ, hlen, hget⟩ := apply_ok castNF mesh img hne hwf hh hw hch
  refine ⟨_, colors, happ, rfl, hlen, hget, ?_⟩
  intro c hc
  obtain ⟨j, hj⟩ := List.mem_iff_get?.mp hc
  obtain ⟨hjl, -⟩ := List.get?_eq_some.mp hj
  rw [hlen] at hjl
  obtain ⟨c', hc', hb⟩ := expectedColorAt castNF img mesh.vertices hwf hh hw hch j hjl
  rw [hget j hjl, hc'] at hj
  injection hj with hj
  exact hj ▸ hb

/-- C4 witness at the unit cube and the 2×2 image. -/
theorem C4_witness :
    ∃ out colors, apply_vertex_colors 0 cubeMesh img22 = .ok out ∧
      out.vertexColors = some colors ∧
      colors.length = cubeMesh.vertices.length ∧
      (∀ j, j < cubeMesh.vertices.length →
        colors.get? j = expectedColor img22 (imgYsOf 0 img22.height cubeMesh.vertices)
          (imgXsOf 0 img22.width cubeMesh.vertices) j) ∧
      ∀ c ∈ colors, c.1 ≤ 255 ∧ c.2.1 ≤ 255 ∧ c.2.2.1 ≤ 255 ∧ c.2.2.2 ≤ 255 :=
  C4_color_cardinality 0 cubeMesh img22 (by decide) (by decide) (by decide)
    (by decide) (by decide)

/-- C5: the colour of every vertex is the sampled pixel's channels: with a
4-channel image all four values are copied (so output alpha is the image's
alpha); with a 3-channel image the three values become RGB and alpha is the
initialised 255. -/
theorem C5_channel_handling (castNF : ℤ) (mesh : TriMesh) (img : ImageArray)
    (hne : mesh.vertices ≠ []) (hwf : img.WF) (hh : 1 ≤ img.height)
    (hw : 1 ≤ img.width) (hch : img.channels = 3 ∨ img.channels = 4) :
    ∃ out colors, apply_vertex_colors castNF mesh img = .ok out ∧
      out.vertexColors = some colors ∧
      ∀ j c, colors.get? j = some c →
        ∃ y x cs, (imgYsOf castNF img.height mesh.vertices).get? j = some y ∧
          (imgXsOf castNF img.width mesh.vertices).get? j = some x ∧
          getPixel img y x = some cs ∧
          (img.channels = 4 →
            c = (cs.getD 0 0, cs.getD 1 0, cs.getD 2 0, cs.getD 3 0)) ∧
          (img.channels = 3 →
            c = (cs.getD 0 0, cs.getD 1 0, cs.getD 2 0, 255)) := by
  obtain ⟨colors, happ, hlen, hget⟩ := apply_ok castNF mesh img hne hwf hh hw hch
  refine ⟨_, colors, happ, rfl, ?_⟩
  intro j c hj
  obtain ⟨hjl, -⟩ := List.get?_eq_some.mp hj
  rw [hlen] at hjl
  rw [hget j hjl] at hj
  unfold expectedColor at hj
  cases hy : (imgYsOf castNF img.height mesh.vertices).get? j with
  | none => rw [hy] at hj; cases hj
  | some y =>
    rw [hy] at hj
    simp only [Option.bind_eq_bind, Option.some_bind] at hj
    cases hx : (imgXsOf castNF img.width mesh.vertices).get? j with
    | none => rw [hx] at hj; simp at hj
    | some x =>
      rw [hx] at hj
      simp only [Option.bind_eq_bind, Option.some_bind] at hj
      cases hg : getPixel img y x with
      | none => rw [hg] at hj; simp at hj
      | some cs =>
        rw [hg] at hj
        simp only [Option.bind_eq_bind, Option.some_bind] at hj
        refine ⟨y, x, cs, rfl, rfl, hg, ?_, ?_⟩
        · intro h4
          rw [h4] at hj
          unfold mkColor at hj
          rw [if_pos rfl] at hj
          split at hj
          · rename_i r g b a h0 h1 h2 h3
            injection hj with hj
            rw [← hj, getD_eq_of_get? cs 0 r 0 h0, getD_eq_of_get? cs 1 g 0 h1,
              getD_eq_of_get? cs 2 b 0 h2, getD_eq_of_get? cs 3 a 0 h3]
          · cases hj
        · intro h3
          rw [h3] at hj
          unfold mkColor at hj
          rw [if_neg (by omega)] at hj
          split at hj
          · rename_i r g b h0 h1 h2
            injection hj with hj
            rw [← hj, getD_eq_of_get? cs 0 r 0 h0, getD_eq_of_get? cs 1 g 0 h1,
              getD_eq_of_get? cs 2 b 0 h2]
            rfl
          · cases hj

/-- C5 witness at the unit cube with the 1×1 RGBA image (alpha 40 is
copied) — the 3-channel case is exercised through the same theorem at the
2×2 RGB image by `C4_witness`-style instantiation. -/
theorem C5_witness :
    (∃ out colors, apply_vertex_colors 0 cubeMesh img11 = .ok out ∧
      out.vertexColors = some colors ∧
      ∀ j c, colors.get? j = some c →
        ∃ y x cs, (imgYsOf 0 img11.height cubeMesh.vertices).get? j = some y ∧
          (imgXsOf 0 img11.width cubeMesh.vertices).get? j = some x ∧
          getPixel img11 y x = some cs ∧
          (img11.channels = 4 →
            c = (cs.getD 0 0, cs.getD 1 0, cs.getD 2 0, cs.getD 3 0)) ∧
          (img11.channels = 3 →
            c = (cs.getD 0 0, cs.getD 1 0, cs.getD 2 0, 255))) ∧
    ∃ out colors, apply_vertex_colors 0 cubeMesh img22 = .ok out ∧
      out.vertexColors = some colors ∧
      ∀ j c, colors.get? j = some c →
        ∃ y x cs, (imgYsOf 0 img22.height cubeMesh.vertices).get? j = some y ∧
          (imgXsOf 0 img22.width cubeMesh.vertices).get? j = some x ∧
          getPixel img22 y x = some cs ∧
          (img22.channels = 4 →
            c = (cs.getD 0 0, cs.getD 1 0, cs.getD 2 0, cs.getD 3 0)) ∧
          (img22.channels = 3 →
            c = (cs.getD 0 0, cs.getD 1 0, cs.getD 2 0, 255)) :=
  ⟨C5_channel_handling 0 cubeMesh img11 (by decide) (by decide) (by decide)
      (by decide) (by decide),
    C5_channel_handling 0 cubeMesh img22 (by decide) (by decide) (by decide)
      (by decide) (by decide)⟩

/-- C6: on a mesh that is non-degenerate along X and Y, the clipped column
index of vertex `j` is `floor(normalized_x * width)` clamped to
`[0, width-1]` (idem for rows with the height), and the colour of vertex
`j` is sampled at `(row, column) = (img_y, img_x)` of the pixel grid. -/
theorem C6_projection_formula (castNF : ℤ) (mesh : TriMesh) (img : ImageArray)
    (mnx mxx mny mxy : ℚ)
    (hmnx : axisMin (column1 mesh.vertices) = some mnx)
    (hmxx : axisMax (column1 mesh.vertices) = some mxx)
    (hmny : axisMin (column2 mesh.vertices) = some mny)
    (hmxy : axisMax (column2 mesh.vertices) = some mxy)
    (hszx : mxx - mnx ≠ 0) (hszy : mxy - mny ≠ 0)
    (hwf : img.WF) (hh : 1 ≤ img.height) (hw : 1 ≤ img.width)
    (hch : img.channels = 3 ∨ img.channels = 4) :
    ∃ out colors, apply_vertex_colors castNF mesh img = .ok out ∧
      out.vertexColors = some colors ∧
      ∀ j p, mesh.vertices.get? j = some p →
        (imgXsOf castNF img.width mesh.vertices).get? j =
          some (npClip ⌊(p.1 - mnx) / (mxx - mnx) * (img.width : ℚ)⌋ 0
            ((img.width : ℤ) - 1)) ∧
        (imgYsOf castNF img.height mesh.vertices).get? j =
          some (npClip ⌊(p.2.1 - mny) / (mxy - mny) * (img.height : ℚ)⌋ 0
            ((img.height : ℤ) - 1)) ∧
        ∀ x y, (imgXsOf castNF img.width mesh.vertices).get? j = some x →
          (imgYsOf castNF img.height mesh.vertices).get? j = some y →
          colors.get? j = (pixelAt img y.toNat x.toNat).bind
            (fun cs => mkColor img.channels cs initColor) := by
  have hne : mesh.vertices ≠ [] := by
    intro h
    rw [h] at hmnx
    simp [column1, axisMin] at hmnx
  obtain ⟨colors, happ, hlen, hget⟩ := apply_ok castNF mesh img hne hwf hh hw hch
  refine ⟨_, colors, happ, rfl, ?_⟩
  intro j p hp
  have hjl : j < mesh.vertices.length := by
    obtain ⟨h, -⟩ := List.get?_eq_some.mp hp
    exact h
  refine ⟨imgXsOf_get_formula castNF img.width mesh.vertices mnx mxx hmnx hmxx
      hszx j p hp,
    imgYsOf_get_formula castNF img.height mesh.vertices mny mxy hmny hmxy
      hszy j p hp, ?_⟩
  intro x y hx hy
  obtain ⟨hx0, hxb⟩ := imgXsOf_get_bounds castNF img.width hw mesh.vertices j x hx
  obtain ⟨hy0, hyb⟩ := imgYsOf_get_bounds castNF img.height hh mesh.vertices j y hy
  obtain ⟨cs, hg, hpa, -, -⟩ := getPixel_of_WF img hwf y x hy0 (by omega) hx0 (by omega)
  rw [hget j hjl]
  unfold expectedColor
  rw [hy, hx]
  simp only [Option.bind_eq_bind, Option.some_bind]
  rw [hg, hpa]

/-- C6 witness: on the unit cube and the 2×2 image, the vertex at (0,0,0)
samples pixel (row 0, column 0) and the vertex at (1,1,0) samples the
clamped pixel (height-1, width-1); the returned colours are those pixels'
values. -/
theorem C6_witness :
    ∃ out colors, apply_vertex_colors 0 cubeMesh img22 = .ok out ∧
      out.vertexColors = some colors ∧
      (imgXsOf 0 img22.width cubeMesh.vertices).get? 0 = some 0 ∧
      (imgYsOf 0 img22.height cubeMesh.vertices).get? 0 = some 0 ∧
      colors.get? 0 = some (255, 0, 0, 255) ∧
      (imgXsOf 0 img22.width cubeMesh.vertices).get? 3 =
        some ((img22.width : ℤ) - 1) ∧
      (imgYsOf 0 img22.height cubeMesh.vertices).get? 3 =
        some ((img22.height : ℤ) - 1) ∧
      colors.get? 3 = some (255, 255, 0, 255) := by
  obtain ⟨out, colors, happ, hvc, hall⟩ :=
    C6_projection_formula 0 cubeMesh img22 0 1 0 1 (by decide) (by decide)
      (by decide) (by decide) (by decide) (by decide) (by decide) (by decide)
      (by decide) (by decide)
  obtain ⟨hx0, hy0, hc0⟩ := hall 0 (0, 0, 0) (by decide)
  obtain ⟨hx3, hy3, hc3⟩ := hall 3 (1, 1, 0) (by decide)
  have hx0' : (imgXsOf 0 img22.width cubeMesh.vertices).get? 0 = some 0 := by
    rw [hx0]
    decide
  have hy0' : (imgYsOf 0 img22.height cubeMesh.vertices).get? 0 = some 0 := by
    rw [hy0]
    decide
  have hx3' : (imgXsOf 0 img22.width cubeMesh.vertices).get? 3 =
      some ((img22.width : ℤ) - 1) := by
    rw [hx3]
    decide
  have hy3' : (imgYsOf 0 img22.height cubeMesh.vertices).get? 3 =
      some ((img22.height : ℤ) - 1) := by
    rw [hy3]
    decide
  refine ⟨out, colors, happ, hvc, hx0', hy0', ?_, hx3', hy3', ?_⟩
  · rw [hc0 0 0 hx0' hy0']
    decide
  · rw [hc3 ((img22.width : ℤ) - 1) ((img22.height : ℤ) - 1) hx3' hy3']
    decide

/-- C7: the output's metadata equals the input's (present iff present,
same entries), and the `dict.copy()` of line 71, modelled at the reference
level, allocates a fresh mapping — a reference distinct from the input's —
holding the same entries. -/
theorem C7_metadata :
    (∀ (castNF : ℤ) (mesh : TriMesh) (img : ImageArray) (out : TriMesh),
      apply_vertex_colors castNF mesh img = .ok out →
        out.metadata = mesh.metadata) ∧
    ∀ (store : List Metadata) (r : ℕ), r < store.length →
      (copyMetadataRef store r).2 ≠ r ∧
      (copyMetadataRef store r).1.get? (copyMetadataRef store r).2 =
        store.get? r := by
  constructor
  · intro castNF mesh img out h
    exact (apply_ok_fields castNF mesh img out h).2.2.1
  · intro store r hr
    constructor
    · show store.length ≠ r
      omega
    · show (store ++ [store.getD r []]).get? store.length = store.get? r
      rw [List.get?_concat_length]
      obtain ⟨v, hv⟩ := get?_isSome_of_lt store r hr
      rw [hv, getD_eq_of_get? store r v [] hv]

/-- C7 witness at `metaMesh` (which carries metadata) and a singleton
reference store. -/
theorem C7_witness :
    metaOut.metadata = metaMesh.metadata ∧
    (copyMetadataRef [[("name", "box")]] 0).2 ≠ 0 ∧
    (copyMetadataRef [[("name", "box")]] 0).1.get?
        (copyMetadataRef [[("name", "box")]] 0).2 =
      [[("name", "box")]].get? 0 := by
  refine ⟨C7_metadata.1 0 metaMesh img11 metaOut (by rfl), ?_, ?_⟩
  · exact (C7_metadata.2 [[("name", "box")]] 0 (by decide)).1
  · exact (C7_metadata.2 [[("name", "box")]] 0 (by decide)).2

/-- C8: the sampling loop — the only in-place mutation in the routine —
leaves the image array unchanged (its writes all target the freshly
allocated colour buffer), and the returned mesh is a new value whose
vertex, face and metadata fields are exactly the input's. -/
theorem C8_no_mutation :
    (∀ (ys xs : List ℤ) (idxs : List ℕ) (st st' : LoopState),
      sampleLoop ys xs idxs st = .ok st' → st'.image = st.image) ∧
    ∀ (castNF : ℤ) (mesh : TriMesh) (img : ImageArray) (out : TriMesh),
      apply_vertex_colors castNF mesh img = .ok out →
        out.vertices = mesh.vertices ∧ out.faces = mesh.faces ∧
        out.metadata = mesh.metadata := by
  refine ⟨fun ys xs idxs st st' h => sampleLoop_image ys xs idxs st st' h, ?_⟩
  intro castNF mesh img out h
  obtain ⟨h1, h2, h3, -⟩ := apply_ok_fields castNF mesh img out h
  exact ⟨h1, h2, h3⟩

/-- C8 witness: a one-step loop run leaves the 1×1 image untouched, and
the cube's output mesh reproduces the cube's fields. -/
theorem C8_witness :
    (LoopState.mk img11 [(10, 20, 30, 40)]).image = img11 ∧
    cubeOut11.vertices = cubeMesh.vertices ∧ cubeOut11.faces = cubeMesh.faces ∧
    cubeOut11.metadata = cubeMesh.metadata := by
  refine ⟨?_, ?_⟩
  · exact C8_no_mutation.1 [0] [0] [0] (LoopState.mk img11 [initColor])
      (LoopState.mk img11 [(10, 20, 30, 40)]) (by rfl)
  · exact C8_no_mutation.2 0 cubeMesh img11 cubeOut11 (by rfl)

/-- C9: the output colours do not depend on the Z column — two meshes with
the same X and Y coordinates and the same faces receive the same colour
sequence from any image. -/
theorem C9_z_independent (castNF : ℤ) (img : ImageArray) (m1 m2 : TriMesh)
    (hxy : m1.vertices.map (fun p => (p.1, p.2.1)) =
      m2.vertices.map (fun p => (p.1, p.2.1)))
    (hf : m1.faces = m2.faces) :
    resultColors (apply_vertex_colors castNF m1 img) =
      resultColors (apply_vertex_colors castNF m2 img) := by
  have h1 : column1 m1.vertices = column1 m2.vertices := by
    have h := congrArg (List.map Prod.fst) hxy
    simpa [column1, List.map_map, Function.comp] using h
  have h2 : column2 m1.vertices = column2 m2.vertices := by
    have h := congrArg (List.map Prod.snd) hxy
    simpa [column2, List.map_map, Function.comp] using h
  have hlen : m1.vertices.length = m2.vertices.length := by
    have h := congrArg List.length h1
    simpa [column1] using h
  cases hv1 : m1.vertices with
  | nil =>
    have hv2 : m2.vertices = [] := by
      rw [hv1] at hlen
      cases hm : m2.vertices with
      | nil => rfl
      | cons w ws =>
        rw [hm] at hlen
        simp at hlen
    rw [apply_nil castNF m1 img hv1, apply_nil castNF m2 img hv2]
  | cons v vs =>
    cases hv2 : m2.vertices with
    | nil =>
      rw [hv1, hv2] at hlen
      simp at hlen
    | cons w ws =>
      rw [apply_cons castNF m1 img v vs hv1, apply_cons castNF m2 img w ws hv2]
      have hrs : runSampling castNF img (v :: vs) = runSampling castNF img (w :: ws) := by
        rw [← hv1, ← hv2]
        exact runSampling_congr castNF img m1.vertices m2.vertices h1 h2
      rw [hrs]
      cases hr : runSampling castNF img (w :: ws) with
      | error e => simp [resultColors]
      | ok st' =>
        cases hm1 : m1.metadata <;> cases hm2 : m2.metadata <;>
          simp [resultColors]

/-- C9 witness: the unit cube and the same cube with all z-coordinates
moved to 9 get identical colour sequences from the 2×2 image. -/
theorem C9_witness :
    resultColors (apply_vertex_colors 0 cubeMesh img22) =
      resultColors (apply_vertex_colors 0 cubeFlat img22) :=
  C9_z_independent 0 img22 cubeMesh cubeFlat (by decide) (by decide)

/-- C10: for a nonempty mesh with nonzero bounding-box size on X and Y and
an image with positive dimensions and 3 or 4 channels, every clipped column
index lies in `[0, width-1]`, every clipped row index lies in
`[0, height-1]`, and the sampling loop completes without error. -/
theorem C10_in_bounds (castNF : ℤ) (mesh : TriMesh) (img : ImageArray)
    (hne : mesh.vertices ≠ [])
    (mnx mxx mny mxy : ℚ)
    (hmnx : axisMin (column1 mesh.vertices) = some mnx)
    (hmxx : axisMax (column1 mesh.vertices) = some mxx)
    (hmny : axisMin (column2 mesh.vertices) = some mny)
    (hmxy : axisMax (column2 mesh.vertices) = some mxy)
    (hszx : mxx - mnx ≠ 0) (hszy : mxy - mny ≠ 0)
    (hwf : img.WF) (hh : 1 ≤ img.height) (hw : 1 ≤ img.width)
    (hch : img.channels = 3 ∨ img.channels = 4) :
    (∀ j x, (imgXsOf castNF img.width mesh.vertices).get? j = some x →
      0 ≤ x ∧ x ≤ (img.width : ℤ) - 1) ∧
    (∀ j y, (imgYsOf castNF img.height mesh.vertices).get? j = some y →
      0 ≤ y ∧ y ≤ (img.height : ℤ) - 1) ∧
    raised (apply_vertex_colors castNF mesh img) = false := by
  refine ⟨fun j x hx => imgXsOf_get_bounds castNF img.width hw mesh.vertices j x hx,
    fun j y hy => imgYsOf_get_bounds castNF img.height hh mesh.vertices j y hy, ?_⟩
  obtain ⟨colors, happ, -, -⟩ := apply_ok castNF mesh img hne hwf hh hw hch
  rw [happ]
  rfl

/-- C10 witness at the unit cube and the 2×2 image. -/
theorem C10_witness :
    (∀ j x, (imgXsOf 0 img22.width cubeMesh.vertices).get? j = some x →
      0 ≤ x ∧ x ≤ (img22.width : ℤ) - 1) ∧
    (∀ j y, (imgYsOf 0 img22.height cubeMesh.vertices).get? j = some y →
      0 ≤ y ∧ y ≤ (img22.height : ℤ) - 1) ∧
    raised (apply_vertex_colors 0 cubeMesh img22) = false :=
  C10_in_bounds 0 cubeMesh img22 (by decide) 0 1 0 1 (by decide) (by decide)
    (by decide) (by decide) (by decide) (by decide) (by decide) (by decide)
    (by decide) (by decide)
